import Mathlib

/-!
Verification of the "Selection Core" of the xMattC/scrapers repository:
the pagination-count calculation of `job_site/job_site/spiders/get_jobs.py`
and the image URL selection/filtering logic of `scrapers/upsplash_images.py`.

Python strings are modelled as `List Char`; Python integers as `Int`; the
exact value of `required_jobs / 100` (Python true division) as a rational,
so `math.ceil` is the mathematical ceiling `Int.ceil` on `ℚ`.
-/

set_option autoImplicit false

/-! ### Pagination planner (get_jobs.py): definitions -/

/-- The plan consumed by the automation driver: the code substitutes
`load_pages` for `LOAD_PAGES` and `click_timeout` for `CLICK_TIMEOUT`
in the JS template (get_jobs.py lines 23-25). We record the two numbers. -/
structure PaginationPlan where
  load_actions : Int
  timeout_ms : Int
deriving DecidableEq, Repr

/-- `math.ceil(required_jobs / 100)` from get_jobs.py line 23: Python `/` is
true division, so this is the ceiling of the exact rational quotient. -/
def ceilDiv100 (n : Int) : Int := ⌈(n : ℚ) / 100⌉

/-- `load_js_code` (get_jobs.py lines 19-26), reduced to the numbers it
substitutes into the JS template:
`load_pages = math.ceil((self.required_jobs / 100)) - 1` and the caller's
`click_timeout`. No validation of `required_jobs` is performed. -/
def load_js_code (required_jobs : Int) (click_timeout : Int) : PaginationPlan :=
  { load_actions := ceilDiv100 required_jobs - 1, timeout_ms := click_timeout }

/-- The spider's constructor (get_jobs.py line 17) calls
`self.load_js_code(3000)` with `self.required_jobs = int(n_listings)`:
this is the spec's `plan(target_count)` with the default click timeout. -/
def plan (target_count : Int) : PaginationPlan := load_js_code target_count 3000

/-- Modelled from the spec's words (section 4.1), for comparison with the
code: `load_actions = ceil(target_count / page_size) - 1`, clamped to a
minimum of 0, with `page_size = 100`. -/
def specLoadActions (target_count : Int) : Int := max (ceilDiv100 target_count - 1) 0

/-! ### Image variant selector (upsplash_images.py): definitions -/

/-- Python strings, as their character sequences. -/
abbrev Str := List Char

/-- Auxiliary for Python's substring test: `pat` begins `hay`. -/
def beginsWith : Str → Str → Bool
  | _, [] => true
  | [], _ :: _ => false
  | c :: cs, d :: ds => c == d && beginsWith cs ds

/-- Python's `pat in hay` substring containment. -/
def hasSub : Str → Str → Bool
  | [], pat => beginsWith [] pat
  | c :: cs, pat => beginsWith (c :: cs) pat || hasSub cs pat

/-- `img_filter_out(url, keywords)` (upsplash_images.py lines 43-53):
`not any(x in url for x in keywords)`. -/
def img_filter_out (url : Str) (keywords : List Str) : Bool :=
  !(keywords.any fun x => hasSub url x)

/-- Python's `s.split(sep)` for a single-character separator: the result is
always non-empty and its first element is the run before the first `sep`. -/
def splitChar (sep : Char) : Str → List Str
  | [] => [[]]
  | c :: rest =>
    match splitChar sep rest with
    | [] => [[]]
    | w :: ws => if c == sep then [] :: w :: ws else (c :: w) :: ws

/-- The keyword list passed at the call site (upsplash_images.py line 69). -/
def srcKeywords : List Str := ["plus".toList, "profile".toList, "premium".toList]

/-- `get_high_res_img_url` (upsplash_images.py lines 56-74) from the point
where `srcset.split(", ")` has produced the entry list: keep the entries
`img_filter_out` accepts, split each survivor on spaces, and return the
first survivor's first field cut at its first `?`; `None` when nothing
survives. The keyword list is the call-site argument (line 69). -/
def get_high_res_img_url (srcset_list : List Str) (keywords : List Str) : Option Str :=
  let url_res := (srcset_list.filter fun src => img_filter_out src keywords).map (splitChar ' ')
  match url_res with
  | [] => none
  | first :: _ => some ((splitChar '?' (first.headD [])).headD [])

/-- The spec's ImageCandidate: a (url, descriptor) pair parsed from one
srcset entry; the entry itself is `url ++ " " ++ descriptor`. -/
structure ImageCandidate where
  url : Str
  descriptor : Str
deriving DecidableEq, Repr

/-- The srcset entry a candidate was parsed from. -/
def entryOf (c : ImageCandidate) : Str := c.url ++ ' ' :: c.descriptor

/-- The spec's `select(candidates, exclusions)`: the code applied to the
srcset entries of the candidates. -/
def select (candidates : List ImageCandidate) (exclusions : List Str) : Option Str :=
  get_high_res_img_url (candidates.map entryOf) exclusions

/-! ### Pagination planner: lemmas and claim theorems -/

lemma ceilDiv100_pos {n : Int} (h : 1 ≤ n) : 1 ≤ ceilDiv100 n := by
  have hq : (((0 : Int) : ℚ)) < (n : ℚ) / 100 := by
    apply div_pos _ (by norm_num)
    exact_mod_cast (by omega : (0 : Int) < n)
  have h2 : (0 : Int) < ⌈(n : ℚ) / 100⌉ := Int.lt_ceil.mpr hq
  unfold ceilDiv100
  omega

lemma ceilDiv100_eq {n k : Int} (h1 : 100 * (k - 1) < n) (h2 : n ≤ 100 * k) :
    ceilDiv100 n = k := by
  unfold ceilDiv100
  have hle : ⌈(n : ℚ) / 100⌉ ≤ k := by
    apply Int.ceil_le.mpr
    rw [div_le_iff₀ (by norm_num)]
    exact_mod_cast (by omega : n ≤ k * 100)
  have hlt : k - 1 < ⌈(n : ℚ) / 100⌉ := by
    apply Int.lt_ceil.mpr
    rw [lt_div_iff₀ (by norm_num)]
    push_cast
    exact_mod_cast (by omega : (k - 1) * 100 < n)
  omega

lemma ceilDiv100_nonpos {n : Int} (h : n ≤ 0) : ceilDiv100 n ≤ 0 := by
  unfold ceilDiv100
  apply Int.ceil_le.mpr
  rw [div_le_iff₀ (by norm_num)]
  push_cast
  exact_mod_cast (by omega : n ≤ 0 * 100)

/-- C1: for every target_count ≥ 1 (page_size = 100), the plan's
load_actions equals the spec's formula ceil(target_count / 100) - 1
clamped to a minimum of 0. -/
theorem plan_load_actions_eq_spec {n : Int} (h : 1 ≤ n) :
    (plan n).load_actions = specLoadActions n := by
  have := ceilDiv100_pos h
  simp only [plan, load_js_code, specLoadActions]
  omega

theorem plan_load_actions_eq_spec_witness :
    1 ≤ (150 : Int) ∧ (plan 150).load_actions = specLoadActions 150 :=
  ⟨by decide, plan_load_actions_eq_spec (by decide)⟩

/-- C6: load_actions is 0 on [1,100], 1 on [101,200], and takes the
values 2, 2, 3 at 250, 300, 301. -/
theorem plan_load_actions_table :
    (∀ n : Int, 1 ≤ n → n ≤ 100 → (plan n).load_actions = 0) ∧
    (∀ n : Int, 101 ≤ n → n ≤ 200 → (plan n).load_actions = 1) ∧
    (plan 250).load_actions = 2 ∧ (plan 300).load_actions = 2 ∧
    (plan 301).load_actions = 3 := by
  refine ⟨?_, ?_, ?_, ?_, ?_⟩
  · intro n h1 h2
    have := ceilDiv100_eq (n := n) (k := 1) (by omega) (by omega)
    simp only [plan, load_js_code]
    omega
  · intro n h1 h2
    have := ceilDiv100_eq (n := n) (k := 2) (by omega) (by omega)
    simp only [plan, load_js_code]
    omega
  · have := ceilDiv100_eq (n := 250) (k := 3) (by norm_num) (by norm_num)
    simp only [plan, load_js_code]
    omega
  · have := ceilDiv100_eq (n := 300) (k := 3) (by norm_num) (by norm_num)
    simp only [plan, load_js_code]
    omega
  · have := ceilDiv100_eq (n := 301) (k := 4) (by norm_num) (by norm_num)
    simp only [plan, load_js_code]
    omega

theorem plan_load_actions_table_witness :
    (plan 1).load_actions = 0 ∧ (plan 150).load_actions = 1 :=
  ⟨plan_load_actions_table.1 1 (by decide) (by decide),
   plan_load_actions_table.2.1 150 (by decide) (by decide)⟩

/-- C7: for every target_count ≥ 1 (the code fixes page_size at 100),
load_actions is never negative. -/
theorem plan_load_actions_nonneg {n : Int} (h : 1 ≤ n) :
    0 ≤ (plan n).load_actions := by
  have := ceilDiv100_pos h
  simp only [plan, load_js_code]
  omega

theorem plan_load_actions_nonneg_witness :
    1 ≤ (7 : Int) ∧ 0 ≤ (plan 7).load_actions :=
  ⟨by decide, plan_load_actions_nonneg (by decide)⟩

/-- C8: for every valid target_count, the plan built with the default
click timeout carries timeout_ms = 3000 (get_jobs.py line 17). -/
theorem plan_timeout_ms {n : Int} (_h : 1 ≤ n) : (plan n).timeout_ms = 3000 := rfl

theorem plan_timeout_ms_witness : 1 ≤ (42 : Int) ∧ (plan 42).timeout_ms = 3000 :=
  ⟨by decide, plan_timeout_ms (by decide)⟩

/-- C5 counterexample: at target_count = 0 the code does not fail fast; it
returns a PaginationPlan, whose load_actions is -1. -/
theorem plan_zero_returns_plan : plan 0 = { load_actions := -1, timeout_ms := 3000 } := by
  have h0 : ceilDiv100 0 = 0 := by
    unfold ceilDiv100
    norm_num
  simp [plan, load_js_code, h0]

/-- C5 amended: for target_count < 1 the code performs no validation and
still returns a PaginationPlan; its load_actions is negative. -/
theorem plan_lt_one_no_failure {n : Int} (h : n < 1) : (plan n).load_actions < 0 := by
  have := ceilDiv100_nonpos (n := n) (by omega)
  simp only [plan, load_js_code]
  omega

theorem plan_lt_one_no_failure_witness :
    (0 : Int) < 1 ∧ (plan 0).load_actions < 0 :=
  ⟨by decide, plan_lt_one_no_failure (by decide)⟩

/-! ### Image variant selector: lemmas -/

lemma splitChar_ne_nil (sep : Char) (l : Str) : splitChar sep l ≠ [] := by
  cases l with
  | nil => simp [splitChar]
  | cons c rest =>
    simp only [splitChar]
    cases splitChar sep rest with
    | nil => simp
    | cons w ws => cases hc : c == sep <;> simp [hc]

lemma splitChar_head (sep : Char) (l : Str) :
    (splitChar sep l).headD [] = l.takeWhile fun a => !(a == sep) := by
  induction l with
  | nil => rfl
  | cons c rest ih =>
    simp only [splitChar]
    cases hrec : splitChar sep rest with
    | nil => exact absurd hrec (splitChar_ne_nil sep rest)
    | cons w ws =>
      rw [hrec] at ih
      simp only [List.headD_cons] at ih
      cases hc : c == sep with
      | true => simp [hc, List.takeWhile_cons]
      | false => simp [hc, List.takeWhile_cons, ih]

lemma takeWhile_entry (sep : Char) (u d : Str) :
    (u ++ sep :: d).takeWhile (fun a => !(a == sep)) = u.takeWhile fun a => !(a == sep) := by
  induction u with
  | nil => simp [List.takeWhile_cons]
  | cons c cs ih =>
    cases hc : c == sep <;> simp [List.takeWhile_cons, hc, ih]

lemma notMem_takeWhile_self (sep : Char) (l : Str) :
    sep ∉ l.takeWhile fun a => !(a == sep) := by
  induction l with
  | nil => simp
  | cons c cs ih =>
    cases hc : c == sep with
    | true => simp [List.takeWhile_cons, hc]
    | false =>
      have hne : sep ≠ c := fun he => by simp [he] at hc
      simp [List.takeWhile_cons, hc, ih, hne]

lemma takeWhile_eq_self_of_notMem (sep : Char) (l : Str) (h : sep ∉ l) :
    l.takeWhile (fun a => !(a == sep)) = l := by
  induction l with
  | nil => rfl
  | cons c cs ih =>
    simp only [List.mem_cons, not_or] at h
    have hc : (c == sep) = false := by
      cases hcc : c == sep
      · rfl
      · exact absurd (beq_iff_eq.mp hcc).symm h.1
    simp [List.takeWhile_cons, hc, ih h.2]

lemma beginsWith_append (hay pat ext : Str) (h : beginsWith hay pat = true) :
    beginsWith (hay ++ ext) pat = true := by
  induction pat generalizing hay with
  | nil => cases hay <;> simp [beginsWith]
  | cons d ds ih =>
    cases hay with
    | nil => simp [beginsWith] at h
    | cons c cs =>
      simp only [List.cons_append]
      simp only [beginsWith, Bool.and_eq_true] at h ⊢
      exact ⟨h.1, ih cs h.2⟩

lemma hasSub_nil_pat (hay : Str) : hasSub hay [] = true := by
  cases hay <;> simp [hasSub, beginsWith]

lemma hasSub_append (hay ext pat : Str) (h : hasSub hay pat = true) :
    hasSub (hay ++ ext) pat = true := by
  induction hay with
  | nil =>
    cases pat with
    | nil => exact hasSub_nil_pat ext
    | cons d ds => simp [hasSub, beginsWith] at h
  | cons c cs ih =>
    rw [List.cons_append]
    simp only [hasSub, Bool.or_eq_true] at h ⊢
    rcases h with h | h
    · exact Or.inl (beginsWith_append (c :: cs) pat ext h)
    · exact Or.inr (ih h)

lemma img_filter_out_entry_false (c : ImageCandidate) (exclusions : List Str)
    (h : img_filter_out c.url exclusions = false) :
    img_filter_out (entryOf c) exclusions = false := by
  simp only [img_filter_out, Bool.not_eq_false', List.any_eq_true] at h ⊢
  obtain ⟨kw, hkw, hsub⟩ := h
  exact ⟨kw, hkw, hasSub_append c.url (' ' :: c.descriptor) kw hsub⟩

lemma filter_map_entryOf (p : Str → Bool) (l : List ImageCandidate) :
    (l.map entryOf).filter p = (l.filter fun c => p (entryOf c)).map entryOf := by
  induction l with
  | nil => rfl
  | cons c cs ih =>
    simp only [List.map_cons, List.filter_cons]
    cases hp : p (entryOf c) <;> simp [hp, ih]

lemma filter_entry_eq_nil (candidates : List ImageCandidate) (exclusions : List Str)
    (h : candidates.filter (fun c => img_filter_out c.url exclusions) = []) :
    candidates.filter (fun c => img_filter_out (entryOf c) exclusions) = [] := by
  rw [List.filter_eq_nil_iff] at h ⊢
  intro c hc
  have h1 := h c hc
  have h2 : img_filter_out c.url exclusions = false := by
    cases hb : img_filter_out c.url exclusions
    · rfl
    · exact absurd hb h1
  have h3 := img_filter_out_entry_false c exclusions h2
  simp [h3]

/-! ### Image variant selector: claim theorems -/

/-- C3: when the URL-filtered subsequence is empty (in particular for the
empty candidate list), select returns the explicit none outcome rather
than an error. -/
theorem select_none_of_filtered_empty (candidates : List ImageCandidate)
    (exclusions : List Str)
    (h : candidates.filter (fun c => img_filter_out c.url exclusions) = []) :
    select candidates exclusions = none := by
  have he := filter_entry_eq_nil candidates exclusions h
  unfold select get_high_res_img_url
  rw [filter_map_entryOf, he]
  rfl

theorem select_none_of_filtered_empty_witness :
    select [] ["plus".toList] = none :=
  select_none_of_filtered_empty [] ["plus".toList] (by decide)

/-- C4 counterexample: with the single candidate (url "a.jpg", descriptor
"plus") and exclusion "plus", the code's filtering step drops the
candidate although its URL contains no exclusion substring, because the
filter tests the whole srcset entry "a.jpg plus". -/
theorem filter_step_not_url_based :
    ¬ (([⟨"a.jpg".toList, "plus".toList⟩] : List ImageCandidate).map entryOf).filter
        (fun e => img_filter_out e ["plus".toList])
      = (([⟨"a.jpg".toList, "plus".toList⟩] : List ImageCandidate).filter
        (fun c => img_filter_out c.url ["plus".toList])).map entryOf := by
  decide

/-- C4 amended: the filtering step keeps exactly those candidates whose
whole srcset entry (url ++ " " ++ descriptor) contains none of the
exclusion substrings, and the surviving entries keep their relative
order (the filtered list is a sublist of the input entry list). -/
theorem filter_step_entry_based (candidates : List ImageCandidate) (exclusions : List Str) :
    (candidates.map entryOf).filter (fun e => img_filter_out e exclusions)
      = (candidates.filter fun c => img_filter_out (entryOf c) exclusions).map entryOf ∧
    ((candidates.map entryOf).filter (fun e => img_filter_out e exclusions)).Sublist
      (candidates.map entryOf) :=
  ⟨filter_map_entryOf _ _, List.filter_sublist _⟩

/-- C2 counterexample: with candidates (url "a.jpg", descriptor "plus") and
(url "b.jpg?y=2", descriptor "1x") and exclusion "plus", both URLs are free
of exclusion substrings, so the first surviving candidate of the claim is
the one with url "a.jpg"; yet select returns "b.jpg", because the code
filters on the whole srcset entry and "a.jpg plus" contains "plus". -/
theorem select_not_first_url_survivor :
    (([⟨"a.jpg".toList, "plus".toList⟩, ⟨"b.jpg?y=2".toList, "1x".toList⟩] :
        List ImageCandidate).filter
      (fun c => img_filter_out c.url ["plus".toList])).map (fun c => c.url)
      = ["a.jpg".toList, "b.jpg?y=2".toList] ∧
    select [⟨"a.jpg".toList, "plus".toList⟩, ⟨"b.jpg?y=2".toList, "1x".toList⟩]
      ["plus".toList] = some ("b.jpg".toList) ∧
    ("b.jpg".toList : Str) ≠ "a.jpg".toList := by
  decide

/-- C2 amended: when the subsequence of candidates whose whole srcset entry
contains no exclusion substring is non-empty, select returns the first such
candidate's URL truncated at its first space and then at its first question
mark; when that URL contains no space this is exactly the URL with
everything from and including the first question mark removed. -/
theorem select_first_entry_survivor (candidates : List ImageCandidate)
    (exclusions : List Str) (c : ImageCandidate) (rest : List ImageCandidate)
    (h : candidates.filter (fun cand => img_filter_out (entryOf cand) exclusions)
      = c :: rest) :
    select candidates exclusions
      = some ((c.url.takeWhile fun a => !(a == ' ')).takeWhile fun a => !(a == '?')) ∧
    (( ' ' ∉ c.url) →
      select candidates exclusions = some (c.url.takeWhile fun a => !(a == '?'))) := by
  have hfilter : (candidates.map entryOf).filter (fun e => img_filter_out e exclusions)
      = entryOf c :: rest.map entryOf := by
    rw [filter_map_entryOf, h, List.map_cons]
  have hraw : select candidates exclusions
      = some ((splitChar '?' ((splitChar ' ' (entryOf c)).headD [])).headD []) := by
    unfold select get_high_res_img_url
    rw [hfilter]
    rfl
  have hmain : select candidates exclusions
      = some ((c.url.takeWhile fun a => !(a == ' ')).takeWhile fun a => !(a == '?')) := by
    rw [hraw, splitChar_head, splitChar_head]
    unfold entryOf
    rw [takeWhile_entry]
  refine ⟨hmain, fun hsp => ?_⟩
  rw [hmain, takeWhile_eq_self_of_notMem ' ' c.url hsp]

theorem select_first_entry_survivor_witness :
    select [⟨"a-plus.jpg".toList, "2x".toList⟩, ⟨"b.jpg?y=2".toList, "1x".toList⟩]
      ["plus".toList] = some ("b.jpg".toList) := by
  have h := (select_first_entry_survivor
    [⟨"a-plus.jpg".toList, "2x".toList⟩, ⟨"b.jpg?y=2".toList, "1x".toList⟩]
    ["plus".toList] ⟨"b.jpg?y=2".toList, "1x".toList⟩ [] (by decide)).2 (by decide)
  rw [h]
  decide

/-- C9: plan and select are deterministic pure functions — two calls with
identical inputs yield identical outputs. -/
theorem plan_select_deterministic (t₁ t₂ : Int) (c₁ c₂ : List ImageCandidate)
    (e₁ e₂ : List Str) (ht : t₁ = t₂) (hc : c₁ = c₂) (he : e₁ = e₂) :
    plan t₁ = plan t₂ ∧ select c₁ e₁ = select c₂ e₂ := by
  subst ht
  subst hc
  subst he
  exact ⟨rfl, rfl⟩

theorem plan_select_deterministic_witness :
    plan 150 = plan 150 ∧ select [] ["plus".toList] = select [] ["plus".toList] :=
  plan_select_deterministic 150 150 [] [] ["plus".toList] ["plus".toList] rfl rfl rfl

/-- C10: whenever select returns a URL, the returned string contains no
question mark and is a prefix of the URL of some candidate in the input. -/
theorem select_some_sound (candidates : List ImageCandidate) (exclusions : List Str)
    (s : Str) (h : select candidates exclusions = some s) :
    ( '?' ∉ s) ∧ ∃ c, c ∈ candidates ∧ ∃ t, s ++ t = c.url := by
  cases hf : candidates.filter (fun cand => img_filter_out (entryOf cand) exclusions) with
  | nil =>
    have hempty : select candidates exclusions = none := by
      unfold select get_high_res_img_url
      rw [filter_map_entryOf, hf]
      rfl
    rw [hempty] at h
    exact absurd h (by simp)
  | cons c rest =>
    have hsel := (select_first_entry_survivor candidates exclusions c rest hf).1
    rw [hsel] at h
    injection h with hs
    subst hs
    constructor
    · exact notMem_takeWhile_self '?' (c.url.takeWhile fun a => !(a == ' '))
    · refine ⟨c, ?_, ?_⟩
      · have hmem : c ∈ candidates.filter
            (fun cand => img_filter_out (entryOf cand) exclusions) := by
          rw [hf]
          exact List.mem_cons_self c rest
        exact List.mem_of_mem_filter hmem
      · refine ⟨((c.url.takeWhile fun a => !(a == ' ')).dropWhile fun a => !(a == '?'))
          ++ (c.url.dropWhile fun a => !(a == ' ')), ?_⟩
        rw [← List.append_assoc, List.takeWhile_append_dropWhile,
          List.takeWhile_append_dropWhile]

theorem select_some_sound_witness :
    ( '?' ∉ ("a.jpg".toList : Str)) ∧
      ∃ c, c ∈ ([⟨"a.jpg?x=1".toList, "1x".toList⟩] : List ImageCandidate) ∧
        ∃ t, ("a.jpg".toList : Str) ++ t = c.url :=
  select_some_sound [⟨"a.jpg?x=1".toList, "1x".toList⟩] [] ("a.jpg".toList) (by decide)
